import Mathlib

/-!
Verification of the statistical evaluation core (`src/evaluation/stats.py`) and
the selective-calibration core (`src/calibration/conformal.py`).

Floating-point arrays are modelled as lists of rationals; numpy operations that
produce NaN on degenerate slices are modelled as `Option.none`, and operations
that raise are modelled with `Except`.
-/

namespace EdaScaffold

/-- Comparison of indices `a b` by the values `x[a], x[b]`, breaking ties by
index: the ascending order realised by `np.argsort x`.  numpy's default
quicksort orders ties arbitrarily; tie order never affects the midrank output,
because all members of a tie group receive the same midrank. -/
def argsortRel (x : List ℚ) (a b : ℕ) : Prop :=
  x.getD a 0 < x.getD b 0 ∨ (x.getD a 0 = x.getD b 0 ∧ a ≤ b)

instance (x : List ℚ) : DecidableRel (argsortRel x) := fun a b =>
  inferInstanceAs (Decidable (x.getD a 0 < x.getD b 0 ∨ (x.getD a 0 = x.getD b 0 ∧ a ≤ b)))

instance (x : List ℚ) : IsTotal ℕ (argsortRel x) := ⟨by
  intro a b
  rcases lt_trichotomy (x.getD a 0) (x.getD b 0) with h | h | h
  · exact Or.inl (Or.inl h)
  · rcases le_total a b with hab | hab
    · exact Or.inl (Or.inr ⟨h, hab⟩)
    · exact Or.inr (Or.inr ⟨h.symm, hab⟩)
  · exact Or.inr (Or.inl h)⟩

instance (x : List ℚ) : IsTrans ℕ (argsortRel x) := ⟨by
  intro a b c hab hbc
  rcases hab with h1 | ⟨h1, h1i⟩ <;> rcases hbc with h2 | ⟨h2, h2i⟩
  · exact Or.inl (h1.trans h2)
  · exact Or.inl (h2 ▸ h1)
  · exact Or.inl (h1 ▸ h2)
  · exact Or.inr ⟨h1.trans h2, h1i.trans h2i⟩⟩

/-- `J = np.argsort(x)`: the indices `0 .. N-1` arranged so that the values of
`x` at those indices are ascending. -/
def argsort (x : List ℚ) : List ℕ :=
  (List.range x.length).insertionSort (argsortRel x)

/-- The run-scanning while loop of `_compute_midrank` over the ascending-sorted
values, with `i` the running sorted position: each maximal run of consecutive
equal values occupying sorted positions `[i, j)` receives the (1-indexed
average-rank) value `0.5 * (i + j - 1) + 1`.  The first argument is fuel,
always instantiated with the list length (each loop iteration consumes at least
one element), keeping the recursion structural. -/
def midrankRunsF : ℕ → List ℚ → ℕ → List ℚ
  | _, [], _ => []
  | 0, _ :: _, _ => []
  | fuel + 1, z :: rest, i =>
    let t := (rest.takeWhile (fun w => decide (w = z))).length
    List.replicate (t + 1) (((i : ℚ) + ((i + t + 1 : ℕ) : ℚ) - 1) / 2 + 1)
      ++ midrankRunsF fuel (rest.dropWhile (fun w => decide (w = z))) (i + t + 1)

/-- The run-scanning loop of `_compute_midrank` at its entry point. -/
def midrankRuns (Z : List ℚ) (i : ℕ) : List ℚ := midrankRunsF Z.length Z i

/-- The scatter step `T2[J] = T` of `_compute_midrank`: the output at original
index `p` is the midrank computed at `p`'s sorted position. -/
def scatter (J : List ℕ) (T : List ℚ) (N : ℕ) : List ℚ :=
  (List.range N).map (fun p => T.getD (J.indexOf p) 0)

/-- `_compute_midrank`: argsort, assign tie-averaged 1-indexed ranks along the
sorted order, scatter back to the original index order. -/
def compute_midrank (x : List ℚ) : List ℚ :=
  let J := argsort x
  let Z := J.map (fun j => x.getD j 0)
  let T := midrankRuns Z 0
  scatter J T x.length

/-- `np.mean`: the mean of an empty slice is NaN (with a RuntimeWarning),
modelled as `none`. -/
def npMean (l : List ℚ) : Option ℚ :=
  if l.length = 0 then none else some (l.sum / l.length)

/-- `np.cov` of a single-variable input (one row of observations): numpy
squeezes the 1×1 result matrix to a 0-dimensional array holding the sample
variance with `ddof = 1`; with fewer than two observations the divisor
`len - 1` is non-positive and numpy produces NaN (modelled as `none`). -/
def npCov0d (v : List ℚ) : Option ℚ :=
  match npMean v with
  | none => none
  | some mu =>
    if v.length < 2 then none
    else some ((v.map (fun t => (t - mu) ^ 2)).sum / ((v.length : ℚ) - 1))

/-- `_fast_delong` specialised to the `k = 1` shape with which
`delong_roc_variance` always calls it (`y_scores[np.newaxis, :]`): the body of
the single iteration of the `r`-loop, producing `aucs[0]` and the squeezed
0-dimensional `delongcov = sx/m + sy/n`.  The arithmetic is modelled over ℚ;
the float round trip `(a - b)/(m*n)*(m*n)` is exactly the identity here. -/
def fast_delong (scores : List ℚ) (label_1_count : ℕ) : Option ℚ × Option ℚ :=
  let m := label_1_count
  let n := scores.length - m
  let pos := scores.take m
  let neg := scores.drop m
  let tx := compute_midrank (pos ++ neg)
  let tx_pos := tx.take m
  let tx_neg := tx.drop m
  let auc :=
    match npMean tx_pos, npMean tx_neg with
    | some a, some b => some ((a - b) / ((m : ℚ) * n) * ((m : ℚ) * n) + 1 / 2)
    | _, _ => none
  let v01 := tx_pos.map (fun t => (t - ((m : ℚ) + 1) / 2) / n)
  let v10 := tx_neg.map (fun t => (t - ((n : ℚ) + 1) / 2) / m)
  let delongcov :=
    match npCov0d v01, npCov0d v10 with
    | some sx, some sy => some (sx / m + sy / n)
    | _, _ => none
  (auc, delongcov)

/-- Descending order on ℚ, the order realised by `np.argsort(-y_scores[0])`. -/
def geQ (a b : ℚ) : Prop := b ≤ a

instance : DecidableRel geQ := fun a b => inferInstanceAs (Decidable (b ≤ a))

/-- The scores sorted descending, as `delong_roc_variance` prepares them. -/
def sortDescQ (l : List ℚ) : List ℚ := l.insertionSort geQ

/-- The values `delong_roc_variance` computes before its final statement: it
sorts the scores descending, reorders the labels by the same permutation (which
leaves their sum unchanged), sets `label_1_count = sum(y_true)` and calls
`_fast_delong`.  Note the first `label_1_count` columns of the sorted row — the
highest-scored instances, whatever their labels — become the "positive"
sub-row. -/
def delong_internal (y_true : List ℕ) (y_scores : List ℚ) : Option ℚ × Option ℚ :=
  fast_delong (sortDescQ y_scores) y_true.sum

/-- `delong_roc_variance`: after the computation modelled by `delong_internal`,
the source returns `aucs[0], delongcov[0, 0]`.  Since `np.cov` squeezed the
single-variable covariance to a 0-dimensional array, the two-index subscript
`delongcov[0, 0]` raises `IndexError` on every input. -/
def delong_roc_variance (y_true : List ℕ) (y_scores : List ℚ) :
    Except String (ℚ × ℚ) :=
  let _r := delong_internal y_true y_scores
  .error "IndexError: delongcov is 0-dimensional, indexed with [0, 0]"

/-- `delong_roc_test`: compares two models via `delong_roc_variance`.
`np.sqrt` and `scipy.stats.norm.cdf` are external numeric collaborators and are
passed as parameters. -/
def delong_roc_test (sqrt normCdf : ℚ → ℚ) (y_true : List ℕ)
    (y_scores_a y_scores_b : List ℚ) : Except String (ℚ × ℚ × ℚ × ℚ) :=
  match delong_roc_variance y_true y_scores_a with
  | .error e => .error e
  | .ok ra =>
    match delong_roc_variance y_true y_scores_b with
    | .error e => .error e
    | .ok rb =>
      let se := sqrt (ra.2 + rb.2)
      let z := if 0 < se then (ra.1 - rb.1) / se else 0
      let p := 2 * (1 - normCdf |z|)
      .ok (z, p, ra.1, rb.1)

/-- Modelled from the spec (section 4.2 step 1): the positive sub-row is the
scores at the indices the label vector marks with 1. -/
def labelPositives (y_true : List ℕ) (y_scores : List ℚ) : List ℚ :=
  ((y_true.zip y_scores).filter (fun r => decide (r.1 = 1))).map (fun r => r.2)

/-- Modelled from the spec (section 4.2 step 1): the negative sub-row is the
scores at the indices the label vector does not mark with 1. -/
def labelNegatives (y_true : List ℕ) (y_scores : List ℚ) : List ℚ :=
  ((y_true.zip y_scores).filter (fun r => decide (r.1 ≠ 1))).map (fun r => r.2)

/-- Modelled from the spec (section 4.2 step 2): AUC =
`(mean(tx_pos) - mean(tx_neg)) / N + 0.5` over the midranks of the
concatenation of the label-driven positive and negative sub-rows. -/
def delong_auc_spec (y_true : List ℕ) (y_scores : List ℚ) : Option ℚ :=
  let pos := labelPositives y_true y_scores
  let neg := labelNegatives y_true y_scores
  let tx := compute_midrank (pos ++ neg)
  match npMean (tx.take pos.length), npMean (tx.drop pos.length) with
  | some a, some b => some ((a - b) / ((pos.length + neg.length : ℕ) : ℚ) + 1 / 2)
  | _, _ => none

/-- Probability input to the calibrators: a binary probability-of-positive
vector (`y_proba.ndim == 1`) or one probability row per instance
(`y_proba.ndim == 2`). -/
inductive ProbaInput where
  | binary (p : List ℚ)
  | multi (p : List (List ℚ))

/-- Number of instances of a probability input. -/
def inputLen : ProbaInput → ℕ
  | .binary p => p.length
  | .multi p => p.length

/-- `np.max` over one probability row.  numpy raises on an empty row; empty
rows are outside every claim and are given the value 0 here. -/
def rowMax : List ℚ → ℚ
  | [] => 0
  | a :: t => t.foldl max a

/-- `np.argmax` over one row: the first index attaining the maximum. -/
def argmaxIdx (row : List ℚ) : ℕ := row.indexOf (rowMax row)

/-- Per-instance confidence `p_max`: `max(p, 1-p)` for binary input, the row
maximum otherwise. -/
def confidences : ProbaInput → List ℚ
  | .binary p => p.map (fun q => max q (1 - q))
  | .multi p => p.map rowMax

/-- Per-instance plain prediction `y_hat`: the threshold-0.5 decision for
binary input, the argmax class index otherwise. -/
def plainPred : ProbaInput → List ℤ
  | .binary p => p.map (fun q => if (1 : ℚ) / 2 ≤ q then 1 else 0)
  | .multi p => p.map (fun row => (argmaxIdx row : ℤ))

/-- All entries of the input are probabilities in `[0, 1]`. -/
def ValidProbs : ProbaInput → Prop
  | .binary p => ∀ q ∈ p, 0 ≤ q ∧ q ≤ 1
  | .multi p => ∀ row ∈ p, ∀ q ∈ row, 0 ≤ q ∧ q ≤ 1

instance : (input : ProbaInput) → Decidable (ValidProbs input)
  | .binary p => inferInstanceAs (Decidable (∀ q ∈ p, 0 ≤ q ∧ q ≤ 1))
  | .multi p => inferInstanceAs (Decidable (∀ row ∈ p, ∀ q ∈ row, 0 ≤ q ∧ q ≤ 1))

/-- Ordering of instance rows `(confidence, prediction, label)` by descending
confidence, as realised by `np.argsort(-p_max)` (ties modelled stably). -/
def confGE (a b : ℚ × ℤ × ℤ) : Prop := b.1 ≤ a.1

instance : DecidableRel confGE := fun a b => inferInstanceAs (Decidable (b.1 ≤ a.1))

instance : IsTotal (ℚ × ℤ × ℤ) confGE := ⟨fun a b => le_total b.1 a.1⟩

instance : IsTrans (ℚ × ℤ × ℤ) confGE := ⟨fun _ _ _ h1 h2 => le_trans h2 h1⟩

/-- The calibration rows `(p_sorted, y_hat_sorted, y_true_sorted)` of
`selective_threshold`: `(confidence, prediction, label)` triples sorted by
descending confidence. -/
def sortedRows (y_true : List ℤ) (input : ProbaInput) : List (ℚ × ℤ × ℤ) :=
  ((confidences input).zip ((plainPred input).zip y_true)).insertionSort confGE

/-- `cum_err[k]`: the number of wrong predictions among the first `k+1` rows of
the descending-confidence order (`1 - correct`, summed). -/
def errNum (y_true : List ℤ) (input : ProbaInput) (k : ℕ) : ℕ :=
  (((sortedRows y_true input).take (k + 1)).map
    (fun r => 1 - (if r.2.1 = r.2.2 then 1 else 0))).sum

/-- `err_rate[k]`: the empirical error rate of the first `k+1` rows of the
descending-confidence order. -/
def errRate (y_true : List ℤ) (input : ProbaInput) (k : ℕ) : ℚ :=
  (errNum y_true input k : ℚ) / (k + 1)

/-- `selective_threshold`: picks the largest sorted position whose prefix
empirical error rate is at most `alpha` (`np.where(err_rate <= alpha)[0][-1]`),
returning `(tau, coverage, empirical error)`; `(1, 0, none)` when no prefix
qualifies. -/
def selective_threshold (y_true : List ℤ) (input : ProbaInput) (alpha : ℚ) :
    ℚ × ℚ × Option ℚ :=
  let sorted := sortedRows y_true input
  let N := sorted.length
  let valid_ix := (List.range N).filter (fun k => decide (errRate y_true input k ≤ alpha))
  match valid_ix.getLast? with
  | none => (1, 0, none)
  | some k =>
    ((sorted.map (fun r => r.1)).getD k 0, ((k : ℚ) + 1) / N,
      some (errRate y_true input k))

/-- `selective_predict`: the plain predictions with the abstention marker `-1`
substituted wherever the confidence is strictly below `tau`, together with the
abstain flags. -/
def selective_predict (input : ProbaInput) (tau : ℚ) : List ℤ × List Bool :=
  let p_max := confidences input
  let pred := plainPred input
  let abstain := p_max.map (fun c => decide (c < tau))
  ((pred.zip abstain).map (fun r => if r.2 then -1 else r.1), abstain)

/-! ### Lemmas about the midrank utility -/

lemma dropWhile_head_false (p : ℚ → Bool) (l : List ℚ) (a : ℚ) (t : List ℚ)
    (h : l.dropWhile p = a :: t) : p a = false := by
  have hw : l.dropWhile p ≠ [] := by simp [h]
  have hh := List.head_dropWhile_not p l hw
  simpa [h] using hh

lemma midrankRunsF_length (fuel : ℕ) : ∀ (Z : List ℚ) (i : ℕ), Z.length ≤ fuel →
    (midrankRunsF fuel Z i).length = Z.length := by
  induction fuel with
  | zero =>
    intro Z i h
    cases Z with
    | nil => simp [midrankRunsF]
    | cons z rest => simp at h
  | succ f ih =>
    intro Z i h
    cases Z with
    | nil => simp [midrankRunsF]
    | cons z rest =>
      have hrest : rest.length ≤ f := by simpa using h
      have hd : (rest.dropWhile (fun w => decide (w = z))).length ≤ f :=
        le_trans (List.Sublist.length_le (List.dropWhile_sublist _)) hrest
      have hlen : (rest.takeWhile (fun w => decide (w = z))).length
          + (rest.dropWhile (fun w => decide (w = z))).length = rest.length := by
        have hc := congrArg List.length
          (List.takeWhile_append_dropWhile (p := fun w => decide (w = z)) (l := rest))
        rwa [List.length_append] at hc
      simp only [midrankRunsF, List.length_append, List.length_replicate,
        ih _ _ hd, List.length_cons]
      omega

lemma midrankRunsF_getD (fuel : ℕ) : ∀ (Z : List ℚ) (i s : ℕ), Z.length ≤ fuel →
    Z.Sorted (· ≤ ·) → s < Z.length →
    (midrankRunsF fuel Z i).getD s 0 =
      (i : ℚ) + ((Z.countP (fun w => decide (w < Z.getD s 0))
        + Z.countP (fun w => decide (w ≤ Z.getD s 0)) + 1 : ℕ) : ℚ) / 2 := by
  induction fuel with
  | zero =>
    intro Z i s h _ hs
    cases Z with
    | nil => simp at hs
    | cons z rest => simp at h
  | succ f ih =>
    intro Z i s h hZ hs
    cases Z with
    | nil => simp at hs
    | cons z rest =>
      have hrest : rest.length ≤ f := by simpa using h
      have hzrest : ∀ w ∈ rest, z ≤ w := (List.sorted_cons.mp hZ).1
      have hrest_sorted : rest.Sorted (· ≤ ·) := (List.sorted_cons.mp hZ).2
      set q : ℚ → Bool := fun w => decide (w = z) with hq
      set run := rest.takeWhile q with hrun
      set rest2 := rest.dropWhile q with hrest2
      set t := run.length with ht
      have hsplit : run ++ rest2 = rest := by
        rw [hrun, hrest2]
        exact List.takeWhile_append_dropWhile q rest
      have hrunz : ∀ w ∈ run, w = z := by
        intro w hw
        have := List.mem_takeWhile_imp hw
        simpa [hq] using this
      have hd : rest2.length ≤ f :=
        le_trans (List.Sublist.length_le (hrest2 ▸ List.dropWhile_sublist q)) hrest
      have hrest2_sorted : rest2.Sorted (· ≤ ·) :=
        List.Pairwise.sublist (hrest2 ▸ List.dropWhile_sublist q) hrest_sorted
      have hrest2_gt : ∀ w ∈ rest2, z < w := by
        rcases h2 : rest2 with _ | ⟨w0, tl⟩
        · simp
        · intro w hw
          have hw0 : q w0 = false := dropWhile_head_false q rest w0 tl (hrest2 ▸ h2)
          have hw0ne : w0 ≠ z := by simpa [hq] using hw0
          have hw0mem : w0 ∈ rest :=
            List.Sublist.subset (hrest2 ▸ List.dropWhile_sublist q) (h2 ▸ List.mem_cons_self w0 tl)
          have hzw0 : z < w0 := lt_of_le_of_ne (hzrest w0 hw0mem) (Ne.symm hw0ne)
          rcases List.mem_cons.mp hw with rfl | hwtl
          · exact hzw0
          · have hsorted2 : (w0 :: tl).Sorted (· ≤ ·) := h2 ▸ hrest2_sorted
            exact lt_of_lt_of_le hzw0 ((List.sorted_cons.mp hsorted2).1 w hwtl)
      have hlenZ : (z :: rest).length = 1 + t + rest2.length := by
        have : run.length + rest2.length = rest.length := by rw [← hsplit]; simp
        simp only [List.length_cons]
        omega
      have hV : midrankRunsF (f + 1) (z :: rest) i =
          List.replicate (t + 1) (((i : ℚ) + ((i + t + 1 : ℕ) : ℚ) - 1) / 2 + 1)
            ++ midrankRunsF f rest2 (i + t + 1) := by
        simp only [midrankRunsF]
      rcases Nat.lt_or_ge s (t + 1) with hcase | hcase
      · -- position inside the first run: the value is z and the run is [0, t+1)
        have hZs : (z :: rest).getD s 0 = z := by
          cases s with
          | zero => simp
          | succ u =>
            have hu : u < t := by omega
            have hu2 : u < run.length := by omega
            have : rest.getD u 0 = run.getD u 0 := by
              conv_lhs => rw [← hsplit]
              exact List.getD_append _ _ _ _ hu2
            rw [List.getD_cons_succ, this, List.getD_eq_getElem _ _ hu2]
            exact hrunz _ (List.getElem_mem hu2)
        have hcLT : (z :: rest).countP (fun w => decide (w < z)) = 0 := by
          rw [List.countP_eq_zero]
          intro w hw
          rcases List.mem_cons.mp hw with rfl | hwr
          · simp
          · simp [not_lt.mpr (hzrest w hwr)]
        have hcLE : (z :: rest).countP (fun w => decide (w ≤ z)) = t + 1 := by
          have hrunc : run.countP (fun w => decide (w ≤ z)) = t := by
            rw [ht, List.countP_eq_length]
            intro w hw
            simp [le_of_eq (hrunz w hw)]
          have hrest2c : rest2.countP (fun w => decide (w ≤ z)) = 0 := by
            rw [List.countP_eq_zero]
            intro w hw
            simp [not_le.mpr (hrest2_gt w hw)]
          rw [List.countP_cons]
          conv_lhs => rw [← hsplit]
          rw [List.countP_append, hrunc, hrest2c]
          simp
        have hgetV : (midrankRunsF (f + 1) (z :: rest) i).getD s 0 =
            ((i : ℚ) + ((i + t + 1 : ℕ) : ℚ) - 1) / 2 + 1 := by
          rw [hV, List.getD_append _ _ _ _ (by simpa using hcase),
            List.getD_eq_getElem _ _ (by simpa using hcase)]
          simp
        rw [hgetV, hZs, hcLT, hcLE]
        push_cast
        ring
      · -- position after the first run: recurse into rest2
        obtain ⟨u, rfl⟩ : ∃ u, s = t + 1 + u := by
          refine ⟨s - (t + 1), ?_⟩
          omega
        have hu : u < rest2.length := by
          rw [hlenZ] at hs
          omega
        have hZs : (z :: rest).getD (t + 1 + u) 0 = rest2.getD u 0 := by
          have h1 : (z :: rest).getD (t + 1 + u) 0 = rest.getD (t + u) 0 := by
            have : t + 1 + u = (t + u) + 1 := by omega
            rw [this, List.getD_cons_succ]
          have h2 : rest.getD (t + u) 0 = rest2.getD u 0 := by
            conv_lhs => rw [← hsplit]
            rw [List.getD_append_right _ _ _ _ (by omega)]
            congr 1
            omega
          rw [h1, h2]
        set v := rest2.getD u 0 with hv
        have hvmem : v ∈ rest2 := by
          rw [hv, List.getD_eq_getElem _ _ hu]
          exact List.getElem_mem hu
        have hzv : z < v := hrest2_gt v hvmem
        have hcLT : (z :: rest).countP (fun w => decide (w < v)) =
            rest2.countP (fun w => decide (w < v)) + t + 1 := by
          have hrunc : run.countP (fun w => decide (w < v)) = t := by
            rw [ht, List.countP_eq_length]
            intro w hw
            simp [(hrunz w hw) ▸ hzv]
          rw [List.countP_cons]
          conv_lhs => rw [← hsplit]
          rw [List.countP_append, hrunc]
          simp [hzv]
          omega
        have hcLE : (z :: rest).countP (fun w => decide (w ≤ v)) =
            rest2.countP (fun w => decide (w ≤ v)) + t + 1 := by
          have hrunc : run.countP (fun w => decide (w ≤ v)) = t := by
            rw [ht, List.countP_eq_length]
            intro w hw
            simp [le_of_lt ((hrunz w hw) ▸ hzv)]
          rw [List.countP_cons]
          conv_lhs => rw [← hsplit]
          rw [List.countP_append, hrunc]
          simp [le_of_lt hzv]
          omega
        have hrec : (midrankRunsF (f + 1) (z :: rest) i).getD (t + 1 + u) 0 =
            (midrankRunsF f rest2 (i + t + 1)).getD u 0 := by
          rw [hV, List.getD_append_right _ _ _ _ (by simp [List.length_replicate])]
          congr 1
          simp [List.length_replicate]
        rw [hrec, ih rest2 (i + t + 1) u hd hrest2_sorted hu, hZs, hcLT, hcLE]
        push_cast
        ring

lemma scatter_length (J : List ℕ) (T : List ℚ) (N : ℕ) : (scatter J T N).length = N := by
  simp [scatter]

lemma scatter_getD (J : List ℕ) (T : List ℚ) (N p : ℕ) (hp : p < N) :
    (scatter J T N).getD p 0 = T.getD (J.indexOf p) 0 := by
  have hlen : p < ((List.range N).map (fun r => T.getD (J.indexOf r) 0)).length := by
    simpa using hp
  rw [scatter, List.getD_eq_getElem _ _ hlen]
  simp

lemma map_getD_range (x : List ℚ) : (List.range x.length).map (fun i => x.getD i 0) = x := by
  apply List.ext_getElem
  · simp
  · intro i h1 h2
    simp [List.getElem?_eq_getElem h2]

lemma argsort_perm (x : List ℚ) : (argsort x).Perm (List.range x.length) :=
  List.perm_insertionSort _ _

lemma argsort_length (x : List ℚ) : (argsort x).length = x.length := by
  simpa using (argsort_perm x).length_eq

lemma argsort_sorted (x : List ℚ) : List.Sorted (argsortRel x) (argsort x) :=
  List.sorted_insertionSort _ _

lemma argsortVals_sorted (x : List ℚ) :
    ((argsort x).map (fun j => x.getD j 0)).Sorted (· ≤ ·) := by
  refine List.Pairwise.map _ ?_ (argsort_sorted x)
  intro a b hab
  rcases hab with h | ⟨h, _⟩
  · exact le_of_lt h
  · exact le_of_eq h

lemma argsortVals_perm (x : List ℚ) :
    ((argsort x).map (fun j => x.getD j 0)).Perm x := by
  have h := (argsort_perm x).map (fun j => x.getD j 0)
  rwa [map_getD_range] at h

lemma compute_midrank_length (x : List ℚ) : (compute_midrank x).length = x.length := by
  have h : compute_midrank x = scatter (argsort x)
      (midrankRuns ((argsort x).map (fun j => x.getD j 0)) 0) x.length := rfl
  rw [h, scatter_length]

lemma compute_midrank_getD (x : List ℚ) (p : ℕ) (hp : p < x.length) :
    (compute_midrank x).getD p 0 =
      ((x.countP (fun w => decide (w < x.getD p 0))
        + x.countP (fun w => decide (w ≤ x.getD p 0)) + 1 : ℕ) : ℚ) / 2 := by
  have hmem : p ∈ argsort x := (argsort_perm x).mem_iff.mpr (List.mem_range.mpr hp)
  have hidx : (argsort x).indexOf p < (argsort x).length := List.indexOf_lt_length.mpr hmem
  have hs : (argsort x).indexOf p < ((argsort x).map (fun j => x.getD j 0)).length := by
    simpa using hidx
  have hZs : ((argsort x).map (fun j => x.getD j 0)).getD ((argsort x).indexOf p) 0
      = x.getD p 0 := by
    rw [List.getD_eq_getElem _ _ hs, List.getElem_map]
    congr 1
    have hg := List.indexOf_get hidx
    simp only [List.get_eq_getElem] at hg
    exact hg
  have hcm : compute_midrank x = scatter (argsort x)
      (midrankRuns ((argsort x).map (fun j => x.getD j 0)) 0) x.length := rfl
  rw [hcm, scatter_getD _ _ _ _ hp, midrankRuns,
    midrankRunsF_getD _ _ 0 _ le_rfl (argsortVals_sorted x) hs, hZs,
    (argsortVals_perm x).countP_eq, (argsortVals_perm x).countP_eq]
  norm_num

lemma list_sum_eq_getD (l : List ℚ) : l.sum = ∑ p in Finset.range l.length, l.getD p 0 := by
  induction l with
  | nil => simp
  | cons a t ih =>
    rw [List.sum_cons, ih, List.length_cons, Finset.sum_range_succ']
    simp [add_comm]

lemma countP_eq_sum_range (x : List ℚ) (f : ℚ → Bool) :
    x.countP f = ∑ q in Finset.range x.length, if f (x.getD q 0) then 1 else 0 := by
  induction x with
  | nil => simp
  | cons a t ih =>
    rw [List.countP_cons, ih, List.length_cons, Finset.sum_range_succ']
    simp

lemma double_count (x : List ℚ) :
    ∑ p in Finset.range x.length, (x.countP (fun w => decide (w < x.getD p 0))
      + x.countP (fun w => decide (w ≤ x.getD p 0))) = x.length * x.length := by
  have hpoint : ∀ a b : ℚ, ((if b < a then 1 else 0) + (if a ≤ b then 1 else 0) : ℕ) = 1 := by
    intro a b
    rcases lt_or_le b a with h | h
    · simp [h, not_le.mpr h]
    · simp [not_lt.mpr h, h]
  calc
    ∑ p in Finset.range x.length, (x.countP (fun w => decide (w < x.getD p 0))
        + x.countP (fun w => decide (w ≤ x.getD p 0)))
      = ∑ p in Finset.range x.length, ((∑ q in Finset.range x.length,
          if x.getD q 0 < x.getD p 0 then 1 else 0)
        + ∑ q in Finset.range x.length, if x.getD q 0 ≤ x.getD p 0 then 1 else 0) := by
        refine Finset.sum_congr rfl fun p _ => ?_
        rw [countP_eq_sum_range, countP_eq_sum_range]
        congr 1 <;> exact Finset.sum_congr rfl fun q _ => by simp
    _ = (∑ p in Finset.range x.length, ∑ q in Finset.range x.length,
          if x.getD q 0 < x.getD p 0 then 1 else 0)
        + ∑ p in Finset.range x.length, ∑ q in Finset.range x.length,
          if x.getD q 0 ≤ x.getD p 0 then 1 else 0 := Finset.sum_add_distrib
    _ = (∑ p in Finset.range x.length, ∑ q in Finset.range x.length,
          if x.getD q 0 < x.getD p 0 then 1 else 0)
        + ∑ p in Finset.range x.length, ∑ q in Finset.range x.length,
          if x.getD p 0 ≤ x.getD q 0 then 1 else 0 := by
        congr 1
        exact Finset.sum_comm
    _ = ∑ p in Finset.range x.length, ∑ q in Finset.range x.length,
          ((if x.getD q 0 < x.getD p 0 then 1 else 0)
            + if x.getD p 0 ≤ x.getD q 0 then 1 else 0) := by
        rw [← Finset.sum_add_distrib]
        exact Finset.sum_congr rfl fun p _ => by rw [← Finset.sum_add_distrib]
    _ = ∑ p in Finset.range x.length, ∑ q in Finset.range x.length, 1 := by
        exact Finset.sum_congr rfl fun p _ => Finset.sum_congr rfl fun q _ => hpoint _ _
    _ = x.length * x.length := by simp [mul_comm]

lemma compute_midrank_sum (x : List ℚ) :
    (compute_midrank x).sum = (x.length : ℚ) * ((x.length : ℚ) + 1) / 2 := by
  rw [list_sum_eq_getD, compute_midrank_length]
  rw [Finset.sum_congr rfl fun p hp => compute_midrank_getD x p (Finset.mem_range.mp hp)]
  rw [← Finset.sum_div, ← Nat.cast_sum]
  have hsum : ∑ p in Finset.range x.length,
      (x.countP (fun w => decide (w < x.getD p 0))
        + x.countP (fun w => decide (w ≤ x.getD p 0)) + 1)
      = x.length * x.length + x.length := by
    rw [Finset.sum_add_distrib, double_count]
    simp
  rw [hsum]
  push_cast
  ring

lemma countP_le_split (x : List ℚ) (v : ℚ) :
    x.countP (fun w => decide (w ≤ v))
      = x.countP (fun w => decide (w < v)) + x.countP (fun w => decide (w = v)) := by
  induction x with
  | nil => simp
  | cons a t ih =>
    rw [List.countP_cons, List.countP_cons, List.countP_cons, ih]
    rcases lt_trichotomy a v with h | h | h
    · simp only [decide_eq_true_eq]
      rw [if_pos (le_of_lt h), if_pos h, if_neg (ne_of_lt h)]
      omega
    · simp only [decide_eq_true_eq]
      rw [if_pos (le_of_eq h), if_neg (by rw [h]; exact lt_irrefl v), if_pos h]
      omega
    · simp only [decide_eq_true_eq]
      rw [if_neg (not_le.mpr h), if_neg (not_lt.mpr (le_of_lt h)),
        if_neg (ne_of_gt h)]
      omega

lemma countP_eq_one_of_nodup (x : List ℚ) (v : ℚ) (hnd : x.Nodup) (hv : v ∈ x) :
    x.countP (fun w => decide (w = v)) = 1 := by
  induction x with
  | nil => simp at hv
  | cons a t ih =>
    rw [List.countP_cons]
    rcases List.mem_cons.mp hv with rfl | hvt
    · have hnotin : v ∉ t := (List.nodup_cons.mp hnd).1
      have hz : t.countP (fun w => decide (w = v)) = 0 := by
        rw [List.countP_eq_zero]
        intro w hw
        simp only [decide_eq_true_eq]
        rintro rfl
        exact hnotin hw
      simp [hz]
    · have hone := ih (List.nodup_cons.mp hnd).2 hvt
      have hne : a ≠ v := by
        rintro rfl
        exact (List.nodup_cons.mp hnd).1 hvt
      simp [hone, hne]

/-- C9: `_compute_midrank` returns an array of the input length in which every
maximal run of equal values occupying sorted positions `[i, j)` receives the
value `0.5*(i + (j-1)) + 1`, scattered back to the original index order.  For a
value `v = x[p]`, its maximal run in the ascending order occupies exactly the
sorted positions `[i, j)` with `i` = the number of entries `< v` and `j` = the
number of entries `≤ v`, which is how the run clause is phrased below.
Consequently: all-distinct inputs receive the standard ranks (each midrank is
the 1-indexed rank `#(entries < v) + 1`, so the midranks are `1..N`), all-equal
inputs each receive `(N+1)/2`, the midranks always sum to `N(N+1)/2`, `N = 0`
yields an empty output and `N = 1` yields the single midrank `1`. -/
theorem compute_midrank_spec (x : List ℚ) :
    (compute_midrank x).length = x.length
    ∧ (∀ p, p < x.length →
        (compute_midrank x).getD p 0 =
          ((x.countP (fun w => decide (w < x.getD p 0)) : ℚ)
            + ((x.countP (fun w => decide (w ≤ x.getD p 0)) : ℚ) - 1)) / 2 + 1)
    ∧ (x.Nodup → ∀ p, p < x.length →
        (compute_midrank x).getD p 0
          = (x.countP (fun w => decide (w < x.getD p 0)) : ℚ) + 1)
    ∧ (∀ c, (∀ a ∈ x, a = c) → ∀ p, p < x.length →
        (compute_midrank x).getD p 0 = ((x.length : ℚ) + 1) / 2)
    ∧ (compute_midrank x).sum = (x.length : ℚ) * ((x.length : ℚ) + 1) / 2
    ∧ (x = [] → compute_midrank x = [])
    ∧ (∀ v, x = [v] → compute_midrank x = [1]) := by
  refine ⟨compute_midrank_length x, ?_, ?_, ?_, compute_midrank_sum x, ?_, ?_⟩
  · intro p hp
    rw [compute_midrank_getD x p hp]
    push_cast
    ring
  · intro hnd p hp
    rw [compute_midrank_getD x p hp]
    have hmem : x.getD p 0 ∈ x := by
      rw [List.getD_eq_getElem _ _ hp]
      exact List.getElem_mem hp
    have hsplit : x.countP (fun w => decide (w ≤ x.getD p 0))
        = x.countP (fun w => decide (w < x.getD p 0)) + 1 := by
      rw [countP_le_split, countP_eq_one_of_nodup x _ hnd hmem]
    rw [hsplit]
    push_cast
    ring
  · intro c hc p hp
    have hv : x.getD p 0 = c := by
      refine hc _ ?_
      rw [List.getD_eq_getElem _ _ hp]
      exact List.getElem_mem hp
    rw [compute_midrank_getD x p hp]
    have hLT : x.countP (fun w => decide (w < x.getD p 0)) = 0 := by
      rw [hv, List.countP_eq_zero]
      intro w hw
      simp [hc w hw]
    have hLE : x.countP (fun w => decide (w ≤ x.getD p 0)) = x.length := by
      rw [hv, List.countP_eq_length]
      intro w hw
      simp [hc w hw]
    rw [hLT, hLE]
    push_cast
    ring
  · intro h
    subst h
    rfl
  · intro v h
    subst h
    have hlen := compute_midrank_length [v]
    obtain ⟨a, ha⟩ := List.length_eq_one.mp hlen
    have h0 := compute_midrank_getD [v] 0 (by simp)
    have hLT : ([v] : List ℚ).countP (fun w => decide (w < ([v] : List ℚ).getD 0 0)) = 0 := by
      simp
    have hLE : ([v] : List ℚ).countP (fun w => decide (w ≤ ([v] : List ℚ).getD 0 0)) = 1 := by
      simp
    rw [hLT, hLE, ha] at h0
    have ha1 : a = 1 := by simpa using h0
    rw [ha, ha1]

/-- Witness for C9 at the concrete input `[2, 1, 1]`: the run clause gives the
entry `3` for the value `2`, and the midranks sum to `3·4/2 = 6`. -/
theorem compute_midrank_spec_witness :
    (compute_midrank [2, 1, 1]).getD 0 0 = 3 ∧ (compute_midrank [2, 1, 1]).sum = 6 := by
  have h := compute_midrank_spec ([2, 1, 1] : List ℚ)
  refine ⟨?_, ?_⟩
  · have h2 := h.2.1 0 (by norm_num)
    rw [h2]
    norm_num
  · have h5 := h.2.2.2.2.1
    rw [h5]
    norm_num

/-! ### Theorems about the DeLong estimator -/

/-- C1: the claim states that `delong_roc_variance` returns an AUC equal to
`(mean(tx_pos) - mean(tx_neg)) / N + 0.5`, in particular `1.0` with variance
`0.0` on perfectly separated classes.  The code disagrees: its line
`aucs[r] = (tx_pos.mean() - tx_neg.mean()) / (m * n) * (m * n) + 0.5` divides
and multiplies by the same factor `m * n`, so the AUC it computes is
`mean(tx_pos) - mean(tx_neg) + 0.5`, never divided by `N`.  On the perfectly
separated input `labels = [1,0,1,0,1,0]`, `scores = [.9,.1,.8,.2,.7,.3]` the
computed AUC is `7/2`, not `1`, and the structural-component variance is
`2/27`, not `0`; the function then raises `IndexError` at `delongcov[0, 0]`
because `np.cov` squeezed the single-row covariance to a 0-dimensional array,
so the claimed values are never returned. -/
theorem delong_auc_formula_bug :
    delong_internal [1, 0, 1, 0, 1, 0] [9/10, 1/10, 8/10, 2/10, 7/10, 3/10] =
      (some (7/2), some (2/27))
    ∧ (7 : ℚ) / 2 ≠ 1
    ∧ delong_roc_variance [1, 0, 1, 0, 1, 0] [9/10, 1/10, 8/10, 2/10, 7/10, 3/10] =
        .error "IndexError: delongcov is 0-dimensional, indexed with [0, 0]" := by
  refine ⟨?_, by norm_num, rfl⟩
  norm_num [delong_internal, fast_delong, sortDescQ, geQ, npMean, npCov0d,
    compute_midrank, argsort, scatter, midrankRuns, midrankRunsF, argsortRel,
    List.insertionSort, List.orderedInsert, List.range_succ, List.replicate_succ]

/-- C2: the claim states that the scores at the indices labelled 1 form the
positive sub-row.  The code instead sorts the scores descending and takes the
first `label_1_count` columns as the positive block, i.e. the highest-scored
instances regardless of their labels.  On `labels = [0,1]`,
`scores = [0.9, 0.1]` the code's positive block is `[0.9]` although the index
labelled 1 holds `0.1`; consequently the internally computed AUC is `3/2`
while the label-driven AUC of the specification is `0`. -/
theorem delong_partition_bug :
    (sortDescQ [9/10, 1/10]).take (([0, 1] : List ℕ).sum) = [9/10]
    ∧ labelPositives [0, 1] [9/10, 1/10] = [1/10]
    ∧ ([9/10] : List ℚ) ≠ [1/10]
    ∧ delong_internal [0, 1] [9/10, 1/10] = (some (3/2), none)
    ∧ delong_auc_spec [0, 1] [9/10, 1/10] = some 0 := by
  refine ⟨?_, by norm_num [labelPositives], by norm_num, ?_, ?_⟩
  · norm_num [sortDescQ, geQ, List.insertionSort, List.orderedInsert]
  · norm_num [delong_internal, fast_delong, sortDescQ, geQ, npMean, npCov0d,
      compute_midrank, argsort, scatter, midrankRuns, midrankRunsF, argsortRel,
      List.insertionSort, List.orderedInsert, List.range_succ, List.replicate_succ]
  · norm_num [delong_auc_spec, labelPositives, labelNegatives, npMean,
      compute_midrank, argsort, scatter, midrankRuns, midrankRunsF, argsortRel,
      List.insertionSort, List.orderedInsert, List.range_succ, List.replicate_succ]

/-- C6: the claim states that `delong_roc_test` returns
`z = (AUC_a - AUC_b)/sqrt(var_a + var_b)` with `z = 0` (hence `p = 1`) when the
combined standard error vanishes, e.g. when a model is compared against
itself.  The code never reaches that computation: `delong_roc_variance` raises
`IndexError` on every input (the squeezed 0-dimensional `delongcov` is indexed
with `[0, 0]`), so comparing a model against itself raises instead of
returning `z = 0, p = 1`.  Stated for the concrete self-comparison
`labels = [1,0]`, identical scores `[0.9, 0.1]`, and for every input and every
choice of the external `sqrt`/`normCdf` collaborators. -/
theorem delong_self_test_bug :
    delong_roc_test (fun q => q) (fun _ => 1/2) [1, 0] [9/10, 1/10] [9/10, 1/10] =
      .error "IndexError: delongcov is 0-dimensional, indexed with [0, 0]"
    ∧ ∀ (sqrt normCdf : ℚ → ℚ) (y_true : List ℕ) (a b : List ℚ),
        delong_roc_test sqrt normCdf y_true a b =
          .error "IndexError: delongcov is 0-dimensional, indexed with [0, 0]" :=
  ⟨rfl, fun _ _ _ _ _ => rfl⟩

/-- C7: the claim states that a label vector with no positives or no negatives
makes the AUC computations fail with an `InvalidInput` error.  The code
contains no input validation at all: with `labels = [1,1]` (no negatives) the
mean of the empty negative midrank block is NaN (modelled `none`), so the AUC
is NaN rather than a rejected input, and the call then terminates with the
same unconditional `IndexError` that every call hits — not an `InvalidInput`
error. -/
theorem delong_degenerate_labels_bug :
    delong_internal [1, 1] [3/10, 7/10] = (none, none)
    ∧ delong_roc_variance [1, 1] [3/10, 7/10] =
        .error "IndexError: delongcov is 0-dimensional, indexed with [0, 0]" := by
  refine ⟨?_, rfl⟩
  norm_num [delong_internal, fast_delong, sortDescQ, geQ, npMean, npCov0d,
    compute_midrank, argsort, scatter, midrankRuns, midrankRunsF, argsortRel,
    List.insertionSort, List.orderedInsert, List.range_succ, List.replicate_succ]

/-! ### Lemmas about the selective calibrator and predictor -/

lemma confidences_length (input : ProbaInput) :
    (confidences input).length = inputLen input := by
  cases input <;> simp [confidences, inputLen]

lemma plainPred_length (input : ProbaInput) :
    (plainPred input).length = inputLen input := by
  cases input <;> simp [plainPred, inputLen]

lemma foldl_max_mem (t : List ℚ) : ∀ a : ℚ, t.foldl max a ∈ a :: t := by
  induction t with
  | nil => intro a; simp
  | cons b t ih =>
    intro a
    have h := ih (max a b)
    rw [List.foldl_cons]
    rcases List.mem_cons.mp h with h2 | h2
    · rcases max_choice a b with h3 | h3 <;> rw [h2, h3]
      · exact List.mem_cons_self _ _
      · exact List.mem_cons_of_mem _ (List.mem_cons_self _ _)
    · exact List.mem_cons_of_mem _ (List.mem_cons_of_mem _ h2)

lemma rowMax_mem (a : ℚ) (t : List ℚ) : rowMax (a :: t) ∈ a :: t :=
  foldl_max_mem t a

lemma confidences_le_one {input : ProbaInput} (hp : ValidProbs input) :
    ∀ c ∈ confidences input, c ≤ 1 := by
  cases input with
  | binary p =>
    intro c hc
    simp only [confidences, List.mem_map] at hc
    obtain ⟨q, hq, rfl⟩ := hc
    obtain ⟨h0, h1⟩ := hp q hq
    exact max_le h1 (by linarith)
  | multi p =>
    intro c hc
    simp only [confidences, List.mem_map] at hc
    obtain ⟨row, hrow, rfl⟩ := hc
    cases row with
    | nil => norm_num [rowMax]
    | cons a t => exact (hp _ hrow _ (rowMax_mem a t)).2

lemma confidences_nonneg {input : ProbaInput} (hp : ValidProbs input) :
    ∀ c ∈ confidences input, 0 ≤ c := by
  cases input with
  | binary p =>
    intro c hc
    simp only [confidences, List.mem_map] at hc
    obtain ⟨q, hq, rfl⟩ := hc
    exact le_trans (hp q hq).1 (le_max_left _ _)
  | multi p =>
    intro c hc
    simp only [confidences, List.mem_map] at hc
    obtain ⟨row, hrow, rfl⟩ := hc
    cases row with
    | nil => norm_num [rowMax]
    | cons a t => exact (hp _ hrow _ (rowMax_mem a t)).1

lemma plainPred_nonneg (input : ProbaInput) : ∀ z ∈ plainPred input, 0 ≤ z := by
  cases input with
  | binary p =>
    intro z hz
    simp only [plainPred, List.mem_map] at hz
    obtain ⟨q, _, rfl⟩ := hz
    split <;> norm_num
  | multi p =>
    intro z hz
    simp only [plainPred, List.mem_map] at hz
    obtain ⟨row, _, rfl⟩ := hz
    exact Int.natCast_nonneg _

lemma selective_predict_pred_length (input : ProbaInput) (tau : ℚ) :
    (selective_predict input tau).1.length = inputLen input := by
  simp [selective_predict, confidences_length, plainPred_length]

lemma selective_predict_abstain_length (input : ProbaInput) (tau : ℚ) :
    (selective_predict input tau).2.length = inputLen input := by
  simp [selective_predict, confidences_length]

lemma selective_predict_abstain_getD (input : ProbaInput) (tau : ℚ) (i : ℕ)
    (hi : i < inputLen input) :
    (selective_predict input tau).2.getD i false
      = decide ((confidences input).getD i 0 < tau) := by
  have hiP : i < (confidences input).length := by rw [confidences_length]; exact hi
  show ((confidences input).map (fun c => decide (c < tau))).getD i false = _
  rw [List.getD_eq_getElem _ _ (by simpa using hiP), List.getElem_map,
    List.getD_eq_getElem _ _ hiP]

lemma selective_predict_pred_getD (input : ProbaInput) (tau : ℚ) (i : ℕ)
    (hi : i < inputLen input) :
    (selective_predict input tau).1.getD i 0
      = if (confidences input).getD i 0 < tau then (-1 : ℤ)
        else (plainPred input).getD i 0 := by
  have hiP : i < (confidences input).length := by rw [confidences_length]; exact hi
  have hip : i < (plainPred input).length := by rw [plainPred_length]; exact hi
  have hzip : i < ((plainPred input).zip
      ((confidences input).map (fun c => decide (c < tau)))).length := by
    simp only [List.length_zip, List.length_map]
    omega
  show (((plainPred input).zip ((confidences input).map fun c => decide (c < tau))).map
      (fun r => if r.2 then -1 else r.1)).getD i 0 = _
  rw [List.getD_eq_getElem _ _ (by simpa using hzip), List.getElem_map, List.getElem_zip,
    List.getElem_map]
  rw [List.getD_eq_getElem _ _ hiP, List.getD_eq_getElem _ _ hip]
  by_cases h : (confidences input)[i] < tau
  · simp [h]
  · simp [h]

/-- C8: `selective_predict` derives each confidence as the maximum predicted
probability (binary: `max(p, 1-p)` — the definition of `confidences`), sets
the abstain flag and replaces the prediction with the reserved marker `-1`
exactly when the confidence is strictly below `tau`, and otherwise emits the
argmax-derived class label (always `≥ 0`) unchanged; both output arrays have
the length of the input. -/
theorem selective_predict_spec (input : ProbaInput) (tau : ℚ) :
    (selective_predict input tau).1.length = inputLen input
    ∧ (selective_predict input tau).2.length = inputLen input
    ∧ ∀ i, i < inputLen input →
        (((selective_predict input tau).2.getD i false = true)
          ↔ (confidences input).getD i 0 < tau)
        ∧ ((confidences input).getD i 0 < tau →
            (selective_predict input tau).1.getD i 0 = -1)
        ∧ (¬ (confidences input).getD i 0 < tau →
            (selective_predict input tau).1.getD i 0 = (plainPred input).getD i 0
            ∧ 0 ≤ (plainPred input).getD i 0) := by
  refine ⟨selective_predict_pred_length input tau, selective_predict_abstain_length input tau, ?_⟩
  intro i hi
  have hip : i < (plainPred input).length := by rw [plainPred_length]; exact hi
  refine ⟨?_, ?_, ?_⟩
  · rw [selective_predict_abstain_getD input tau i hi]
    simp
  · intro h
    rw [selective_predict_pred_getD input tau i hi, if_pos h]
  · intro h
    refine ⟨by rw [selective_predict_pred_getD input tau i hi, if_neg h], ?_⟩
    have hmem : (plainPred input).getD i 0 ∈ plainPred input := by
      rw [List.getD_eq_getElem _ _ hip]
      exact List.getElem_mem hip
    exact plainPred_nonneg input _ hmem

/-- Witness for C8 at the binary input `[0.7]` with `tau = 1`: the confidence
`0.7` is below the threshold, so the prediction is the abstention marker. -/
theorem selective_predict_spec_witness :
    (selective_predict (ProbaInput.binary [7/10]) 1).1.getD 0 0 = -1 := by
  have h := selective_predict_spec (ProbaInput.binary [7/10]) 1
  refine (h.2.2 0 (by norm_num [inputLen])).2.1 ?_
  norm_num [confidences, max_def]

/-- C5 counterexample: the claim says `selective_predict` with `tau = 1.0`
abstains on every instance, but an instance with confidence exactly `1.0`
(binary probability `1`) is not abstained, because the code abstains only on
`confidence < tau` (strict). -/
theorem selective_predict_tau_one_cex :
    (selective_predict (ProbaInput.binary [1]) 1).2 = [false]
    ∧ ¬ (∀ b ∈ (selective_predict (ProbaInput.binary [1]) 1).2, b = true) := by
  have h : (selective_predict (ProbaInput.binary [1]) 1).2 = [false] := by
    norm_num [selective_predict, confidences, max_def]
  refine ⟨h, ?_⟩
  rw [h]
  simp

/-- C5 amended: for every probability input (entries in `[0, 1]`),
`selective_predict` with `tau = 0` abstains on no instance and returns exactly
the plain argmax/threshold-0.5 decisions, and `selective_predict` with
`tau = 1` abstains exactly on the instances whose confidence is strictly below
`1.0` — in particular on every instance when no confidence equals `1.0`, but
not on instances with confidence exactly `1.0`. -/
theorem selective_predict_extremes (input : ProbaInput) (hp : ValidProbs input) :
    ((selective_predict input 0).2 = List.replicate (inputLen input) false
      ∧ (selective_predict input 0).1 = plainPred input)
    ∧ ∀ i, i < inputLen input →
        (((selective_predict input 1).2.getD i false = true)
          ↔ (confidences input).getD i 0 < 1) := by
  refine ⟨⟨?_, ?_⟩, ?_⟩
  · rw [List.eq_replicate_iff]
    refine ⟨selective_predict_abstain_length input 0, ?_⟩
    intro b hb
    have hb2 : b ∈ (confidences input).map (fun c => decide (c < 0)) := hb
    simp only [List.mem_map] at hb2
    obtain ⟨c, hc, rfl⟩ := hb2
    have h0 : (0 : ℚ) ≤ c := confidences_nonneg hp c hc
    simp [not_lt.mpr h0]
  · apply List.ext_getElem
    · rw [selective_predict_pred_length, plainPred_length]
    · intro i h1 h2
      have hi : i < inputLen input := by
        rw [← selective_predict_pred_length input 0]
        exact h1
      have e1 : (selective_predict input 0).1[i] = (selective_predict input 0).1.getD i 0 :=
        (List.getD_eq_getElem _ _ h1).symm
      have e2 : (plainPred input)[i] = (plainPred input).getD i 0 :=
        (List.getD_eq_getElem _ _ h2).symm
      rw [e1, e2, selective_predict_pred_getD input 0 i hi]
      have hiP : i < (confidences input).length := by rw [confidences_length]; exact hi
      have hmem : (confidences input).getD i 0 ∈ confidences input := by
        rw [List.getD_eq_getElem _ _ hiP]
        exact List.getElem_mem hiP
      exact if_neg (not_lt.mpr (confidences_nonneg hp _ hmem))
  · intro i hi
    rw [selective_predict_abstain_getD input 1 i hi]
    simp

/-- Witness for the amended C5 at the binary input `[0.7, 0.2]`: with
`tau = 0` nothing is abstained. -/
theorem selective_predict_extremes_witness :
    (selective_predict (ProbaInput.binary [7/10, 2/10]) 0).2
      = List.replicate (inputLen (ProbaInput.binary [7/10, 2/10])) false := by
  have h := selective_predict_extremes (ProbaInput.binary [7/10, 2/10])
    (by norm_num [ValidProbs])
  exact h.1.1

lemma lastFilter_succ (p : ℕ → Bool) (N : ℕ) :
    ((List.range (N + 1)).filter p).getLast? =
      if p N then some N else ((List.range N).filter p).getLast? := by
  rw [List.range_succ, List.filter_append]
  rcases hN : p N with _ | _
  · simp [List.filter_cons, hN]
  · simp [List.filter_cons, hN, List.getLast?_concat]

lemma lastFilter_none (p : ℕ → Bool) (N : ℕ) :
    (((List.range N).filter p).getLast? = none) ↔ ∀ i, i < N → p i = false := by
  induction N with
  | zero => simp
  | succ n ih =>
    rw [lastFilter_succ]
    rcases hn : p n with _ | _
    · rw [if_neg (by simp [hn]), ih]
      constructor
      · intro h i hi
        rcases Nat.lt_succ_iff_lt_or_eq.mp hi with h2 | rfl
        · exact h i h2
        · exact hn
      · intro h i hi
        exact h i (Nat.lt_succ_of_lt hi)
    · rw [if_pos (by simp [hn])]
      constructor
      · intro h
        exact absurd h (by simp)
      · intro h
        exact absurd (h n (Nat.lt_succ_self n)) (by simp [hn])

lemma lastFilter_some (p : ℕ → Bool) (N k : ℕ)
    (h : ((List.range N).filter p).getLast? = some k) :
    k < N ∧ p k = true ∧ ∀ j, j < N → k < j → p j = false := by
  induction N with
  | zero => simp at h
  | succ n ih =>
    rw [lastFilter_succ] at h
    rcases hn : p n with _ | _
    · rw [if_neg (by simp [hn])] at h
      obtain ⟨h1, h2, h3⟩ := ih h
      refine ⟨Nat.lt_succ_of_lt h1, h2, ?_⟩
      intro j hj hkj
      rcases Nat.lt_succ_iff_lt_or_eq.mp hj with h4 | rfl
      · exact h3 j h4 hkj
      · exact hn
    · rw [if_pos (by simp [hn])] at h
      have hkn : k = n := by
        have := Option.some.inj h
        omega
      subst hkn
      exact ⟨Nat.lt_succ_self k, hn, fun j hj hkj => by omega⟩

lemma lastFilter_eq_some (p : ℕ → Bool) (N k : ℕ) (h1 : k < N) (h2 : p k = true)
    (h3 : ∀ j, j < N → k < j → p j = false) :
    ((List.range N).filter p).getLast? = some k := by
  induction N with
  | zero => omega
  | succ n ih =>
    rw [lastFilter_succ]
    rcases Nat.lt_succ_iff_lt_or_eq.mp h1 with hk | rfl
    · rw [if_neg (by simp [h3 n (Nat.lt_succ_self n) hk])]
      exact ih hk (fun j hj hkj => h3 j (Nat.lt_succ_of_lt hj) hkj)
    · rw [if_pos (by simp [h2])]

lemma sortedRows_perm (y_true : List ℤ) (input : ProbaInput) :
    (sortedRows y_true input).Perm
      ((confidences input).zip ((plainPred input).zip y_true)) :=
  List.perm_insertionSort _ _

lemma sortedRows_sorted (y_true : List ℤ) (input : ProbaInput) :
    List.Sorted confGE (sortedRows y_true input) :=
  List.sorted_insertionSort _ _

lemma sortedRows_length (y_true : List ℤ) (input : ProbaInput)
    (hlen : y_true.length = inputLen input) :
    (sortedRows y_true input).length = inputLen input := by
  rw [sortedRows, List.length_insertionSort, List.length_zip, List.length_zip,
    confidences_length, plainPred_length, hlen]
  omega

lemma sortedRows_conf_antitone (y_true : List ℤ) (input : ProbaInput) {a b : ℕ}
    (hab : a ≤ b) (hb : b < (sortedRows y_true input).length) :
    ((sortedRows y_true input).map (fun r => r.1)).getD b 0
      ≤ ((sortedRows y_true input).map (fun r => r.1)).getD a 0 := by
  have ha : a < (sortedRows y_true input).length := lt_of_le_of_lt hab hb
  have hma : a < ((sortedRows y_true input).map (fun r => r.1)).length := by simpa using ha
  have hmb : b < ((sortedRows y_true input).map (fun r => r.1)).length := by simpa using hb
  rcases eq_or_lt_of_le hab with rfl | hlt
  · exact le_refl _
  · have hpair := List.pairwise_iff_get.mp (sortedRows_sorted y_true input)
      ⟨a, ha⟩ ⟨b, hb⟩ hlt
    rw [List.getD_eq_getElem _ _ hmb, List.getD_eq_getElem _ _ hma,
      List.getElem_map, List.getElem_map]
    exact hpair

lemma sortedRows_fst_mem (y_true : List ℤ) (input : ProbaInput) {w : ℚ}
    (hw : w ∈ (sortedRows y_true input).map (fun r => r.1)) :
    w ∈ confidences input := by
  obtain ⟨r, hr, rfl⟩ := List.mem_map.mp hw
  obtain ⟨c, pr⟩ := r
  have hrz := (sortedRows_perm y_true input).mem_iff.mp hr
  exact (List.of_mem_zip hrz).1

lemma selective_threshold_eq (y_true : List ℤ) (input : ProbaInput) (alpha : ℚ) :
    selective_threshold y_true input alpha =
      match ((List.range (sortedRows y_true input).length).filter
          (fun k => decide (errRate y_true input k ≤ alpha))).getLast? with
      | none => (1, 0, none)
      | some k => (((sortedRows y_true input).map (fun r => r.1)).getD k 0,
          ((k : ℚ) + 1) / ((sortedRows y_true input).length : ℚ),
          some (errRate y_true input k)) := rfl

/-- C3: `selective_threshold` selects the longest prefix of the instances in
descending-confidence order whose empirical error rate is at most `alpha`: if
some prefix qualifies, the returned triple is the confidence at the last
accepted sorted position `k`, the coverage `(k+1)/N`, and the prefix empirical
error; if no prefix (not even length 1) qualifies, it returns
`tau = 1, coverage = 0` and a null empirical error, without raising. -/
theorem selective_threshold_spec (y_true : List ℤ) (input : ProbaInput) (alpha : ℚ) :
    ((∀ i, i < (sortedRows y_true input).length → ¬ errRate y_true input i ≤ alpha) →
      selective_threshold y_true input alpha = (1, 0, none))
    ∧ (∀ k, k < (sortedRows y_true input).length → errRate y_true input k ≤ alpha →
        (∀ j, j < (sortedRows y_true input).length → k < j →
          ¬ errRate y_true input j ≤ alpha) →
        selective_threshold y_true input alpha =
          (((sortedRows y_true input).map (fun r => r.1)).getD k 0,
            ((k : ℚ) + 1) / ((sortedRows y_true input).length : ℚ),
            some (errRate y_true input k))) := by
  constructor
  · intro h
    have hnone : ((List.range (sortedRows y_true input).length).filter
        (fun k => decide (errRate y_true input k ≤ alpha))).getLast? = none := by
      rw [lastFilter_none]
      intro i hi
      simp [h i hi]
    rw [selective_threshold_eq, hnone]
  · intro k hk hvalid hmax
    have hsome : ((List.range (sortedRows y_true input).length).filter
        (fun j => decide (errRate y_true input j ≤ alpha))).getLast? = some k := by
      apply lastFilter_eq_some
      · exact hk
      · simp [hvalid]
      · intro j hj hkj
        simp [hmax j hj hkj]
    rw [selective_threshold_eq, hsome]

/-- C4: for a fixed calibration set whose probabilities lie in `[0, 1]` and
error targets `a1 ≤ a2`, the threshold returned by `selective_threshold`
satisfies `tau(a1) ≥ tau(a2)` and the coverage satisfies
`coverage(a1) ≤ coverage(a2)`: decreasing the error target never decreases the
threshold and never increases the coverage. -/
theorem selective_threshold_monotone (y_true : List ℤ) (input : ProbaInput) (a1 a2 : ℚ)
    (hp : ValidProbs input) (h12 : a1 ≤ a2) :
    (selective_threshold y_true input a2).1 ≤ (selective_threshold y_true input a1).1
    ∧ (selective_threshold y_true input a1).2.1 ≤ (selective_threshold y_true input a2).2.1 := by
  have e1 := selective_threshold_eq y_true input a1
  have e2 := selective_threshold_eq y_true input a2
  have himp : ∀ k, decide (errRate y_true input k ≤ a1) = true →
      decide (errRate y_true input k ≤ a2) = true := by
    intro k hk
    simp only [decide_eq_true_eq] at hk ⊢
    exact le_trans hk h12
  rcases hc1 : ((List.range (sortedRows y_true input).length).filter
      (fun k => decide (errRate y_true input k ≤ a1))).getLast? with _ | k1
  · have t1 : selective_threshold y_true input a1 = (1, 0, none) := by rw [e1, hc1]
    rcases hc2 : ((List.range (sortedRows y_true input).length).filter
        (fun k => decide (errRate y_true input k ≤ a2))).getLast? with _ | k2
    · have t2 : selective_threshold y_true input a2 = (1, 0, none) := by rw [e2, hc2]
      rw [t1, t2]
      exact ⟨le_refl _, le_refl _⟩
    · have t2 : selective_threshold y_true input a2 =
          (((sortedRows y_true input).map (fun r => r.1)).getD k2 0,
            ((k2 : ℚ) + 1) / ((sortedRows y_true input).length : ℚ),
            some (errRate y_true input k2)) := by rw [e2, hc2]
      obtain ⟨hk2N, _, _⟩ := lastFilter_some _ _ _ hc2
      have hk2m : k2 < ((sortedRows y_true input).map (fun r => r.1)).length := by
        simpa using hk2N
      have hmem : ((sortedRows y_true input).map (fun r => r.1)).getD k2 0
          ∈ (sortedRows y_true input).map (fun r => r.1) := by
        rw [List.getD_eq_getElem _ _ hk2m]
        exact List.getElem_mem hk2m
      have hle1 : ((sortedRows y_true input).map (fun r => r.1)).getD k2 0 ≤ 1 :=
        confidences_le_one hp _ (sortedRows_fst_mem y_true input hmem)
      have hcov : (0 : ℚ) ≤ ((k2 : ℚ) + 1) / ((sortedRows y_true input).length : ℚ) := by
        apply div_nonneg <;> positivity
      rw [t1, t2]
      exact ⟨hle1, hcov⟩
  · obtain ⟨hk1N, hp1, _⟩ := lastFilter_some _ _ _ hc1
    have t1 : selective_threshold y_true input a1 =
        (((sortedRows y_true input).map (fun r => r.1)).getD k1 0,
          ((k1 : ℚ) + 1) / ((sortedRows y_true input).length : ℚ),
          some (errRate y_true input k1)) := by rw [e1, hc1]
    rcases hc2 : ((List.range (sortedRows y_true input).length).filter
        (fun k => decide (errRate y_true input k ≤ a2))).getLast? with _ | k2
    · exfalso
      have hall := (lastFilter_none _ _).mp hc2
      have hfalse := hall k1 hk1N
      rw [himp k1 hp1] at hfalse
      simp at hfalse
    · obtain ⟨hk2N, hp2, hmax2⟩ := lastFilter_some _ _ _ hc2
      have t2 : selective_threshold y_true input a2 =
          (((sortedRows y_true input).map (fun r => r.1)).getD k2 0,
            ((k2 : ℚ) + 1) / ((sortedRows y_true input).length : ℚ),
            some (errRate y_true input k2)) := by rw [e2, hc2]
      have hk12 : k1 ≤ k2 := by
        by_contra hcon
        push_neg at hcon
        have hfalse := hmax2 k1 hk1N hcon
        rw [himp k1 hp1] at hfalse
        simp at hfalse
      rw [t1, t2]
      constructor
      · exact sortedRows_conf_antitone y_true input hk12 hk2N
      · have hNQ : (0 : ℚ) < ((sortedRows y_true input).length : ℚ) := by
          have hNpos : 0 < (sortedRows y_true input).length :=
            Nat.lt_of_le_of_lt (Nat.zero_le _) hk2N
          exact_mod_cast hNpos
        apply (div_le_div_iff_of_pos_right hNQ).mpr
        have hcast : (k1 : ℚ) ≤ (k2 : ℚ) := by exact_mod_cast hk12
        linarith

/-- Witness for C4 on the calibration set `labels = [1,1,0,1,0]`,
`probabilities = [0.9, 0.8, 0.3, 0.6, 0.4]` with `a1 = 0.1 ≤ a2 = 0.3`. -/
theorem selective_threshold_monotone_witness :
    (selective_threshold [1, 1, 0, 1, 0]
        (ProbaInput.binary [9/10, 8/10, 3/10, 6/10, 4/10]) (3/10)).1
      ≤ (selective_threshold [1, 1, 0, 1, 0]
        (ProbaInput.binary [9/10, 8/10, 3/10, 6/10, 4/10]) (1/10)).1 :=
  (selective_threshold_monotone [1, 1, 0, 1, 0]
    (ProbaInput.binary [9/10, 8/10, 3/10, 6/10, 4/10]) (1/10) (3/10)
    (by norm_num [ValidProbs]) (by norm_num)).1

/-- C10: when `selective_threshold` returns a positive coverage, every instance
of the selected prefix (the first `coverage · N` sorted positions) has
confidence at least the returned `tau`, so applying `selective_predict` with
that `tau` abstains on none of them and the fraction of non-abstained
instances is at least the reported coverage. -/
theorem selective_coverage_bound (y_true : List ℤ) (input : ProbaInput)
    (alpha tau cov : ℚ) (e : Option ℚ)
    (hlen : y_true.length = inputLen input)
    (h : selective_threshold y_true input alpha = (tau, cov, e)) (hcov : 0 < cov) :
    (∀ i : ℕ, (i : ℚ) < cov * ((sortedRows y_true input).length : ℚ) →
      tau ≤ ((sortedRows y_true input).map (fun r => r.1)).getD i 0)
    ∧ cov ≤ (((selective_predict input tau).2.countP (fun b => !b) : ℕ) : ℚ)
        / (inputLen input : ℚ) := by
  have e1 := selective_threshold_eq y_true input alpha
  rcases hc : ((List.range (sortedRows y_true input).length).filter
      (fun k => decide (errRate y_true input k ≤ alpha))).getLast? with _ | k
  · exfalso
    have hEq : (tau, cov, e) = ((1 : ℚ), (0 : ℚ), (none : Option ℚ)) := by
      rw [← h, e1, hc]
    have hcov0 : cov = 0 := by
      have := congrArg (fun t => t.2.1) hEq
      simpa using this
    linarith
  · obtain ⟨hkN, hpk, _⟩ := lastFilter_some _ _ _ hc
    have hEq : (tau, cov, e) = (((sortedRows y_true input).map (fun r => r.1)).getD k 0,
        ((k : ℚ) + 1) / ((sortedRows y_true input).length : ℚ),
        some (errRate y_true input k)) := by
      rw [← h, e1, hc]
    have htau : tau = ((sortedRows y_true input).map (fun r => r.1)).getD k 0 := by
      have := congrArg (fun t => t.1) hEq
      simpa using this
    have hcovEq : cov = ((k : ℚ) + 1) / ((sortedRows y_true input).length : ℚ) := by
      have := congrArg (fun t => t.2.1) hEq
      simpa using this
    have hNpos : 0 < (sortedRows y_true input).length :=
      Nat.lt_of_le_of_lt (Nat.zero_le _) hkN
    have hNQ : (0 : ℚ) < ((sortedRows y_true input).length : ℚ) := by exact_mod_cast hNpos
    have hcovN : cov * ((sortedRows y_true input).length : ℚ) = (k : ℚ) + 1 := by
      rw [hcovEq]
      field_simp
    constructor
    · intro i hi
      rw [hcovN] at hi
      have hik : i ≤ k := by
        have hi2 : i < k + 1 := by exact_mod_cast hi
        omega
      rw [htau]
      exact sortedRows_conf_antitone y_true input hik hkN
    · have hcount1 : (selective_predict input tau).2.countP (fun b => !b)
          = (confidences input).countP (fun c => !(decide (c < tau))) := by
        show ((confidences input).map (fun c => decide (c < tau))).countP (fun b => !b) = _
        rw [List.countP_map]
        rfl
      have hzip_eq : ((confidences input).zip ((plainPred input).zip y_true)).map
          (fun r => r.1) = confidences input := by
        have hle : (confidences input).length ≤ ((plainPred input).zip y_true).length := by
          rw [List.length_zip, confidences_length, plainPred_length, hlen]
          omega
        exact List.map_fst_zip _ _ hle
      have hpperm : ((sortedRows y_true input).map (fun r => r.1)).Perm (confidences input) := by
        have hm := (sortedRows_perm y_true input).map (fun r => r.1)
        rwa [hzip_eq] at hm
      have hcount2 : (confidences input).countP (fun c => !(decide (c < tau)))
          = ((sortedRows y_true input).map (fun r => r.1)).countP
              (fun c => !(decide (c < tau))) :=
        (hpperm.countP_eq _).symm
      have hpslen : ((sortedRows y_true input).map (fun r => r.1)).length
          = (sortedRows y_true input).length := by simp
      have hall : ∀ c ∈ ((sortedRows y_true input).map (fun r => r.1)).take (k + 1),
          (!(decide (c < tau))) = true := by
        intro c hc2
        obtain ⟨i, hilen, hci⟩ := List.mem_iff_getElem.mp hc2
        have hi2 : i < k + 1 := by
          rw [List.length_take] at hilen
          omega
        have hips : i < ((sortedRows y_true input).map (fun r => r.1)).length := by
          rw [List.length_take] at hilen
          omega
        have hEq3 : (((sortedRows y_true input).map (fun r => r.1)).take (k + 1))[i]
            = ((sortedRows y_true input).map (fun r => r.1))[i] := by
          have hopt := List.getElem?_take_of_lt
            (l := (sortedRows y_true input).map (fun r => r.1)) (n := k + 1) (m := i) hi2
          rw [List.getElem?_eq_getElem hilen, List.getElem?_eq_getElem hips] at hopt
          exact Option.some.inj hopt
        have hcps : c = ((sortedRows y_true input).map (fun r => r.1)).getD i 0 := by
          rw [List.getD_eq_getElem _ _ hips, ← hEq3, hci]
        have hge : tau ≤ ((sortedRows y_true input).map (fun r => r.1)).getD i 0 := by
          rw [htau]
          exact sortedRows_conf_antitone y_true input (by omega : i ≤ k) hkN
        rw [hcps]
        simpa using not_lt.mpr hge
      have htake : (((sortedRows y_true input).map (fun r => r.1)).take (k + 1)).countP
          (fun c => !(decide (c < tau)))
          = (((sortedRows y_true input).map (fun r => r.1)).take (k + 1)).length :=
        List.countP_eq_length.mpr hall
      have hlen_take : (((sortedRows y_true input).map (fun r => r.1)).take (k + 1)).length
          = k + 1 := by
        rw [List.length_take, hpslen]
        omega
      have hcount3 : k + 1 ≤ ((sortedRows y_true input).map (fun r => r.1)).countP
          (fun c => !(decide (c < tau))) := by
        have hdec : ((sortedRows y_true input).map (fun r => r.1)).countP
            (fun c => !(decide (c < tau)))
            = (((sortedRows y_true input).map (fun r => r.1)).take (k + 1)).countP
                (fun c => !(decide (c < tau)))
              + (((sortedRows y_true input).map (fun r => r.1)).drop (k + 1)).countP
                (fun c => !(decide (c < tau))) := by
          conv_lhs => rw [← List.take_append_drop (k + 1)
            ((sortedRows y_true input).map (fun r => r.1))]
          rw [List.countP_append]
        rw [hdec, htake, hlen_take]
        exact Nat.le_add_right _ _
      have hNlen : (sortedRows y_true input).length = inputLen input :=
        sortedRows_length y_true input hlen
      rw [hcovEq, hNlen]
      have hLQ : (0 : ℚ) < (inputLen input : ℚ) := by rw [← hNlen]; exact hNQ
      apply (div_le_div_iff_of_pos_right hLQ).mpr
      have : ((k : ℚ) + 1) ≤ ((((sortedRows y_true input).map (fun r => r.1)).countP
          (fun c => !(decide (c < tau))) : ℕ) : ℚ) := by
        exact_mod_cast hcount3
      rw [hcount1, hcount2]
      exact this

/-- Witness for C3 on the calibration set `labels = [1,1,0,1,0]`,
`probabilities = [0.9, 0.8, 0.3, 0.6, 0.4]`, `alpha = 0.3`: every prediction is
correct, the longest qualifying prefix is the whole set (`k = 4`), so
`tau = 0.6`, coverage `1`, empirical error `0`. -/
theorem selective_threshold_spec_witness :
    selective_threshold [1, 1, 0, 1, 0]
      (ProbaInput.binary [9/10, 8/10, 3/10, 6/10, 4/10]) (3/10) = (3/5, 1, some 0) := by
  have hlen5 : (sortedRows [1, 1, 0, 1, 0]
      (ProbaInput.binary [9/10, 8/10, 3/10, 6/10, 4/10])).length = 5 := by
    rw [sortedRows, List.length_insertionSort]
    norm_num [confidences, plainPred]
  have h := (selective_threshold_spec [1, 1, 0, 1, 0]
      (ProbaInput.binary [9/10, 8/10, 3/10, 6/10, 4/10]) (3/10)).2 4
      (by rw [hlen5]; omega)
      (by norm_num [errRate, errNum, sortedRows, confGE, confidences, plainPred,
        List.insertionSort, List.orderedInsert, max_def])
      (by
        intro j hj h4j
        rw [hlen5] at hj
        omega)
  rw [h, hlen5]
  norm_num [errRate, errNum, sortedRows, confGE, confidences, plainPred,
    List.insertionSort, List.orderedInsert, max_def]

/-- Witness for C10 on `labels = [1, 0]`, probabilities `[0.9, 0.2]`,
`alpha = 0.5`: the returned threshold is `0.8` with coverage `1`, and indeed
no instance abstains at `tau = 0.8`. -/
theorem selective_coverage_bound_witness :
    (1 : ℚ) ≤ (((selective_predict (ProbaInput.binary [9/10, 2/10]) (4/5)).2.countP
        (fun b => !b) : ℕ) : ℚ) / (inputLen (ProbaInput.binary [9/10, 2/10]) : ℚ) := by
  have hsel : selective_threshold [1, 0] (ProbaInput.binary [9/10, 2/10]) (1/2)
      = (4/5, 1, some 0) := by
    norm_num [selective_threshold, sortedRows, errRate, errNum, confGE, confidences,
      plainPred, List.insertionSort, List.orderedInsert, max_def, List.range_succ,
      List.filter_cons]
  have h := selective_coverage_bound [1, 0] (ProbaInput.binary [9/10, 2/10]) (1/2)
    (4/5) 1 (some 0) (by norm_num [inputLen]) hsel (by norm_num)
  exact h.2

end EdaScaffold
